import Mathlib

/-!
Shallow embedding of the block storage and cursor subsystem of a lossless
JPEG recompressor (source files src/structs/block_based_image.rs and
src/structs/block_context.rs), together with theorems settling the
specification claims about it.

Modelling conventions:
* Rust i32 values are modelled as unbounded Int.  The two lossy integer
  conversions the code performs and relies on - an i32 difference cast with
  `as usize` when forming a vector index, and a usize length cast with
  `as i32` when comparing against dpos_offset - are modelled exactly, with
  two's-complement wrapping (release-mode semantics).
* Fatal failures (assert!, panic!, out-of-bounds indexing, Option::unwrap)
  are modelled by Option: a none result means the operation aborts.
* Vec::with_capacity is modelled by an explicit capacity field; for the
  nonzero allocation sizes used here the reserved capacity is exact.
* The i16 coefficients are modelled as Int; the code never performs
  arithmetic on them, so no wrapping is involved.
-/

namespace LeptonJpeg

/-- Two's-complement wrap of an integer into the i32 range, the effect of a
lossy cast into i32 (for example a usize length cast with `as i32`). -/
def i32wrap (n : Int) : Int := (n + 2 ^ 31) % 2 ^ 32 - 2 ^ 31

/-- Value of an `as usize` cast applied to an i32 value on a 64-bit target:
sign-extension of the 32-bit value reinterpreted as an unsigned 64-bit
index.  The argument is expected to already lie in the i32 range. -/
def usizeOfI32 (n : Int) : Nat := (n % 2 ^ 64).toNat

/-- Block of 64 coefficients in the aligned order, which is similar to
zigzag except that the 7x7 lower right square comes first, followed by the
DC, followed by the edges (from struct AlignedBlock, block_based_image.rs;
the [i16; 64] array is modelled as a list of length 64). -/
structure AlignedBlock where
  raw_data : List Int
  deriving DecidableEq, Repr

/-- Modelled from the spec: the permutation tables live in crate::consts,
which is not part of the given sources; the spec fixes the JPEG zigzag
scan as external lookup data.  Entry i is the raster position (row-major,
8 columns) visited i-th by the standard JPEG zigzag scan. -/
def ZIGZAG_TO_RASTER : List Nat :=
  [0, 1, 8, 16, 9, 2, 3, 10,
   17, 24, 32, 25, 18, 11, 4, 5,
   12, 19, 26, 33, 40, 48, 41, 34,
   27, 20, 13, 6, 7, 14, 21, 28,
   35, 42, 49, 56, 57, 50, 43, 36,
   29, 22, 15, 23, 30, 37, 44, 51,
   58, 59, 52, 45, 38, 31, 39, 46,
   53, 60, 61, 54, 47, 55, 62, 63]

/-- Modelled from the spec: the aligned coefficient order (crate::consts is
not part of the given sources).  Per the source comment and spec, aligned
order is the 7x7 lower-right square first (in zigzag order, slots 0..48),
followed by the DC, followed by the first-row/first-column edge
coefficients (in zigzag order).  Entry k is the raster position stored in
aligned slot k. -/
def alignedOrder : List Nat :=
  (ZIGZAG_TO_RASTER.filter (fun r => r % 8 != 0 && r / 8 != 0)) ++ [0] ++
    (ZIGZAG_TO_RASTER.filter (fun r => r != 0 && (r % 8 == 0 || r / 8 == 0)))

/-- Modelled from the spec: the aligned slot holding the DC coefficient
(constant ALIGNED_BLOCK_INDEX_DC_INDEX from crate::consts, not part of the
given sources): the slot right after the 49 entries of the 7x7 square. -/
def ALIGNED_BLOCK_INDEX_DC_INDEX : Nat := 49

/-- Modelled from the spec: table mapping a zigzag index to the aligned
slot holding that coefficient (constant ZIGZAG_TO_ALIGNED from
crate::consts, not part of the given sources). -/
def ZIGZAG_TO_ALIGNED : List Nat :=
  ZIGZAG_TO_RASTER.map (fun r => alignedOrder.indexOf r)

/-- Modelled from the spec: table mapping a raster index to the aligned
slot holding that coefficient (constant RASTER_TO_ALIGNED from
crate::consts, not part of the given sources). -/
def RASTER_TO_ALIGNED : List Nat :=
  (List.range 64).map (fun r => alignedOrder.indexOf r)

/-- Reading one coefficient slot of the backing array. -/
def AlignedBlock.get_coefficient (b : AlignedBlock) (index : Nat) : Int :=
  b.raw_data.getD index 0

/-- Writing one coefficient slot of the backing array. -/
def AlignedBlock.set_coefficient (b : AlignedBlock) (index : Nat) (v : Int) :
    AlignedBlock :=
  ⟨b.raw_data.set index v⟩

def AlignedBlock.get_dc (b : AlignedBlock) : Int :=
  b.get_coefficient ALIGNED_BLOCK_INDEX_DC_INDEX

def AlignedBlock.set_dc (b : AlignedBlock) (v : Int) : AlignedBlock :=
  b.set_coefficient ALIGNED_BLOCK_INDEX_DC_INDEX v

def AlignedBlock.get_coefficient_zigzag (b : AlignedBlock) (index : Nat) : Int :=
  b.get_coefficient (ZIGZAG_TO_ALIGNED.getD index 0)

def AlignedBlock.set_coefficient_zigzag (b : AlignedBlock) (index : Nat)
    (v : Int) : AlignedBlock :=
  b.set_coefficient (ZIGZAG_TO_ALIGNED.getD index 0) v

def AlignedBlock.get_coefficient_raster (b : AlignedBlock) (index : Nat) : Int :=
  b.get_coefficient (RASTER_TO_ALIGNED.getD index 0)

/-- Modelled from the spec: the raster-order setter (the spec lists raster
equivalents of the zigzag accessors; only the getter appears in the given
sources).  It translates the index through RASTER_TO_ALIGNED before
addressing the backing array. -/
def AlignedBlock.set_coefficient_raster (b : AlignedBlock) (index : Nat)
    (v : Int) : AlignedBlock :=
  b.set_coefficient (RASTER_TO_ALIGNED.getD index 0) v

/-- Count of nonzero entries among aligned slots 0..48 (the 7x7 AC square),
from AlignedBlock::get_count_of_non_zeros_7x7. -/
def AlignedBlock.get_count_of_non_zeros_7x7 (b : AlignedBlock) : Nat :=
  ((List.range 49).filter (fun index => b.raw_data.getD index 0 != 0)).length

/-- The shared all-zero block (static EMPTY in block_based_image.rs). -/
def EMPTY : AlignedBlock := ⟨List.replicate 64 0⟩

/-- Holds the 8x8 blocks for a given component (struct BlockBasedImage).
The Vec of blocks is modelled as a list plus an explicit capacity field
recording the reserved allocation. -/
structure BlockBasedImage where
  block_width : Int
  original_height : Int
  dpos_offset : Int
  image : List AlignedBlock
  capacity : Nat
  deriving DecidableEq, Repr

/-- Well-formedness facts every store the code can build satisfies:
dpos_offset is a nonnegative i32 value (BlockBasedImage::new computes it as
a quotient of nonnegative geometry values and merge sets it to 0), the
vector never outgrows its reserved capacity (fill_up_to_dpos aborts first),
and the capacity is below 2^31 because a store covers at most one whole
component, whose block count bch * bcv is an i32 product. -/
def BlockBasedImage.WF (s : BlockBasedImage) : Prop :=
  0 ≤ s.dpos_offset ∧ s.dpos_offset < 2 ^ 31 ∧
    s.image.length ≤ s.capacity ∧ s.capacity < 2 ^ 31

instance (s : BlockBasedImage) : Decidable s.WF := by
  unfold BlockBasedImage.WF; infer_instance

/-- The vector index the code computes for a global block position:
the i32 difference dpos - dpos_offset cast with `as usize`. -/
def BlockBasedImage.localIndex (s : BlockBasedImage) (dpos : Int) : Nat :=
  usizeOfI32 (i32wrap (dpos - s.dpos_offset))

/-- Constructs a new block image for the given luma y-coordinate range
(BlockBasedImage::new).  bch and bcv are the component's block width and
block height from the header, luma_bcv is the luma component's block
height (cmp_info[0].bcv); the header struct itself is external input.
The i64 intermediates cannot overflow for i32 inputs, so they are plain
Int here; Rust division truncates, hence Int.tdiv; division by zero and a
failing try_from (negative capacity, offset outside the i32 range) abort. -/
def BlockBasedImage.new (bch bcv luma_bcv luma_y_start luma_y_end : Int) :
    Option BlockBasedImage :=
  if luma_bcv = 0 then none
  else if 0 ≤ (bch * bcv * (luma_y_end - luma_y_start) + (luma_bcv - 1)).tdiv luma_bcv then
    if -(2 ^ 31) ≤ (bch * bcv * luma_y_start).tdiv luma_bcv ∧
        (bch * bcv * luma_y_start).tdiv luma_bcv < 2 ^ 31 then
      some { block_width := bch
             original_height := bcv
             dpos_offset := (bch * bcv * luma_y_start).tdiv luma_bcv
             image := []
             capacity :=
               ((bch * bcv * (luma_y_end - luma_y_start) + (luma_bcv - 1)).tdiv
                 luma_bcv).toNat }
    else none
  else none

/-- One iteration budget of the fill loop in fill_up_to_dpos: while the
length is at most the target slot, abort if the capacity is reached, else
push one zero block.  The fuel argument makes the recursion structural;
fillLoop below supplies exactly the number of iterations the while loop
performs. -/
def fillLoopGo (cap slot : Nat) : Nat → List AlignedBlock → Option (List AlignedBlock)
  | 0, img => some img
  | fuel + 1, img =>
    if img.length ≤ slot then
      if cap ≤ img.length then none
      else fillLoopGo cap slot fuel (img ++ [EMPTY])
    else some img

/-- The while loop of fill_up_to_dpos: grow the vector with zero blocks
until the target slot exists, aborting when the reserved capacity would be
exceeded. -/
def fillLoop (cap slot : Nat) (img : List AlignedBlock) :
    Option (List AlignedBlock) :=
  fillLoopGo cap slot (slot + 1 - img.length) img

/-- BlockBasedImage::fill_up_to_dpos: the first write must target the
store's own offset, positions below the offset are rejected, and the
vector is grown up to the requested local slot. -/
def BlockBasedImage.fill_up_to_dpos (s : BlockBasedImage) (dpos : Int) :
    Option BlockBasedImage :=
  if s.image.length = 0 ∧ ¬s.dpos_offset = dpos then none
  else if dpos < s.dpos_offset then none
  else
    match fillLoop s.capacity (s.localIndex dpos) s.image with
    | some img => some { s with image := img }
    | none => none

/-- BlockBasedImage::set_block_data: fill up to the position, then
overwrite the block there. -/
def BlockBasedImage.set_block_data (s : BlockBasedImage) (dpos : Int)
    (block_data : List Int) : Option BlockBasedImage :=
  match s.fill_up_to_dpos dpos with
  | some t => some { t with image := t.image.set (t.localIndex dpos) ⟨block_data⟩ }
  | none => none

/-- BlockBasedImage::get_block: the block at the position if materialized,
else the shared empty block. -/
def BlockBasedImage.get_block (s : BlockBasedImage) (dpos : Int) : AlignedBlock :=
  if s.image.length ≤ s.localIndex dpos then EMPTY
  else s.image.getD (s.localIndex dpos) EMPTY

/-- BlockBasedImage::get_block_mut: fill up to the position and return the
store together with the block the returned reference points at. -/
def BlockBasedImage.get_block_mut (s : BlockBasedImage) (dpos : Int) :
    Option (BlockBasedImage × AlignedBlock) :=
  match s.fill_up_to_dpos dpos with
  | some t => some (t, t.image.getD (t.localIndex dpos) EMPTY)
  | none => none

/-- BlockBasedImage::get_blocks_mut: fill up to here, split the vector at
here's local slot, and read the three neighbors (sentinel -1 meaning
absent, mapped to the empty block) from the first part and the current
block from the second.  Out-of-range neighbor indexing aborts. -/
def BlockBasedImage.get_blocks_mut (s : BlockBasedImage)
    (above left above_left here : Int) :
    Option (List Int × List Int × List Int × AlignedBlock × BlockBasedImage) :=
  match s.fill_up_to_dpos here with
  | none => none
  | some t =>
    match (if above = -1 then some EMPTY.raw_data
           else ((t.image.take (t.localIndex here)).get? (t.localIndex above)).map
             AlignedBlock.raw_data),
          (if left = -1 then some EMPTY.raw_data
           else ((t.image.take (t.localIndex here)).get? (t.localIndex left)).map
             AlignedBlock.raw_data),
          (if above_left = -1 then some EMPTY.raw_data
           else ((t.image.take (t.localIndex here)).get? (t.localIndex above_left)).map
             AlignedBlock.raw_data),
          (t.image.drop (t.localIndex here)).get? 0 with
    | some a, some l, some al, some h => some (a, l, al, h, t)
    | _, _, _, _ => none

/-- One dimension check of the merge loop: if a value was already
recorded, the next store's value must match it (assert_eq, whose failure
aborts), otherwise the first store's value is recorded. -/
def checkSame : Option Int → Int → Option Int
  | some w, v => if w = v then some w else none
  | none, v => some v

/-- The loop of BlockBasedImage::merge over the stores of one component:
each store's dpos_offset must equal the accumulated length (compared after
the usize length is cast with `as i32`), block_width and original_height
must match the first store's, and the block vectors are concatenated. -/
def mergeLoop : List BlockBasedImage → List AlignedBlock → Option Int → Option Int →
    Option (List AlignedBlock × Option Int × Option Int)
  | [], contents, bw, oh => some (contents, bw, oh)
  | s :: rest, contents, bw, oh =>
    if s.dpos_offset = i32wrap contents.length then
      match checkSame bw s.block_width, checkSame oh s.original_height with
      | some w, some h => mergeLoop rest (contents ++ s.image) (some w) (some h)
      | _, _ => none
    else none

/-- BlockBasedImage::merge for one component index: the per-thread stores,
in the order given, are concatenated into a store with dpos_offset 0; any
assertion failure, or the final unwrap on an empty collection, aborts. -/
def BlockBasedImage.merge (images : List BlockBasedImage) : Option BlockBasedImage :=
  match mergeLoop images [] none none with
  | some (contents, some w, some h) =>
    some { block_width := w
           original_height := h
           dpos_offset := 0
           image := contents
           capacity := (images.map (fun s => s.image.length)).sum }
  | _ => none

/-- Sum of the block counts of the first i stores of a collection. -/
def prefixLen (l : List BlockBasedImage) (i : Nat) : Nat :=
  ((l.take i).map (fun s => s.image.length)).sum

/-- Total block count of a collection of stores. -/
def totalLen (l : List BlockBasedImage) : Nat :=
  (l.map (fun s => s.image.length)).sum

/-- The neighbor-aware cursor (struct BlockContext, block_context.rs). -/
structure BlockContext where
  block_width : Int
  cur_block_index : Int
  above_block_index : Int
  cur_num_non_zeros_index : Int
  above_num_non_zero_index : Int
  deriving DecidableEq, Repr

/-- BlockContext::next: advance the current block index, recompute the
above index, advance both neighbor-summary indices, and at the end of a
row fold the summary ring buffer; returns the new current block index. -/
def BlockContext.next (c : BlockContext) (has_more : Bool) : Int × BlockContext :=
  if !has_more then
    if c.cur_num_non_zeros_index + 1 < c.above_num_non_zero_index + 1 then
      (c.cur_block_index + 1,
       { block_width := c.block_width
         cur_block_index := c.cur_block_index + 1
         above_block_index :=
           if c.cur_block_index + 1 < c.block_width then
             c.cur_block_index + 1 + c.block_width
           else c.cur_block_index + 1 - c.block_width
         cur_num_non_zeros_index := c.cur_num_non_zeros_index + 1
         above_num_non_zero_index :=
           c.above_num_non_zero_index + 1 - c.block_width * 2 })
    else
      (c.cur_block_index + 1,
       { block_width := c.block_width
         cur_block_index := c.cur_block_index + 1
         above_block_index :=
           if c.cur_block_index + 1 < c.block_width then
             c.cur_block_index + 1 + c.block_width
           else c.cur_block_index + 1 - c.block_width
         cur_num_non_zeros_index :=
           c.cur_num_non_zeros_index + 1 - c.block_width * 2
         above_num_non_zero_index := c.above_num_non_zero_index + 1 })
  else
    (c.cur_block_index + 1,
     { block_width := c.block_width
       cur_block_index := c.cur_block_index + 1
       above_block_index :=
         if c.cur_block_index + 1 < c.block_width then
           c.cur_block_index + 1 + c.block_width
         else c.cur_block_index + 1 - c.block_width
       cur_num_non_zeros_index := c.cur_num_non_zeros_index + 1
       above_num_non_zero_index := c.above_num_non_zero_index + 1 })

/-! ### Helper lemmas about the integer casts and list primitives -/

theorem i32wrap_of_range {n : Int} (h0 : -(2 ^ 31) ≤ n) (h1 : n < 2 ^ 31) :
    i32wrap n = n := by
  unfold i32wrap
  omega

theorem usizeOfI32_of_nonneg {n : Int} (h0 : 0 ≤ n) (h1 : n < 2 ^ 63) :
    usizeOfI32 n = n.toNat := by
  unfold usizeOfI32
  omega

theorem usizeOfI32_of_neg {n : Int} (h0 : -(2 ^ 31) ≤ n) (h1 : n < 0) :
    2 ^ 64 - 2 ^ 31 ≤ usizeOfI32 n := by
  unfold usizeOfI32
  omega

theorem localIndex_eq {s : BlockBasedImage} {dpos : Int}
    (h0 : s.dpos_offset ≤ dpos) (h1 : dpos - s.dpos_offset < 2 ^ 31) :
    s.localIndex dpos = (dpos - s.dpos_offset).toNat := by
  unfold BlockBasedImage.localIndex i32wrap usizeOfI32
  omega

theorem getD_set_eq {α : Type} {l : List α} {n : Nat} {v d : α}
    (h : n < l.length) : (l.set n v).getD n d = v := by
  induction l generalizing n with
  | nil => simp at h
  | cons a t ih =>
    cases n with
    | zero => rfl
    | succ m => exact ih (by simpa using h)

theorem getD_set_ne {α : Type} {l : List α} {m n : Nat} {v d : α}
    (h : n ≠ m) : (l.set m v).getD n d = l.getD n d := by
  induction l generalizing m n with
  | nil => rfl
  | cons a t ih =>
    cases m with
    | zero =>
      cases n with
      | zero => exact absurd rfl h
      | succ k => rfl
    | succ m0 =>
      cases n with
      | zero => rfl
      | succ k => exact ih (by omega)

/-! ### C8: BlockContext::next advances the cursor -/

/-- C8: next(has_more) increments cur_block_index by exactly 1 and returns
the new value; afterwards, if the new cur_block_index is below block_width
the above index points forward by block_width, otherwise it points back by
block_width. -/
theorem c8_next_advances (c : BlockContext) (has_more : Bool) :
    (c.next has_more).1 = c.cur_block_index + 1 ∧
    (c.next has_more).2.cur_block_index = c.cur_block_index + 1 ∧
    (c.next has_more).2.above_block_index =
      (if c.cur_block_index + 1 < c.block_width then
        c.cur_block_index + 1 + c.block_width
      else c.cur_block_index + 1 - c.block_width) := by
  unfold BlockContext.next
  split_ifs <;> simp_all

/-! ### C1: the ring-buffer fold at the end of a row -/

/-- C1 as stated is false on the code: with block_width 4 and summary
indices 3 and 7 (distinct, incremented to 4 and 8 by step 3), the
numerically smaller index (cur, at 4) is left at 4 rather than being
decreased by 2 * block_width to -4, and it is the larger index (above)
that is wound back from 8 to 0. -/
theorem c1_counterexample :
    (3 : Int) + 1 < (7 : Int) + 1 ∧
    ¬((BlockContext.next ⟨4, 0, 4, 3, 7⟩ false).2.cur_num_non_zeros_index =
        3 + 1 - 2 * 4 ∧
      (BlockContext.next ⟨4, 0, 4, 3, 7⟩ false).2.above_num_non_zero_index =
        7 + 1) := by
  decide

/-- C1 (amended): when next is called with has_more false on a context
whose two summary indices are distinct, after the step-3 increments the
numerically larger of the two summary indices is decreased by
2 * block_width while the smaller one is left unchanged. -/
theorem c1_next_row_fold (c : BlockContext)
    (h : c.cur_num_non_zeros_index ≠ c.above_num_non_zero_index) :
    (c.cur_num_non_zeros_index < c.above_num_non_zero_index →
      (c.next false).2.above_num_non_zero_index =
        c.above_num_non_zero_index + 1 - 2 * c.block_width ∧
      (c.next false).2.cur_num_non_zeros_index =
        c.cur_num_non_zeros_index + 1) ∧
    (c.above_num_non_zero_index < c.cur_num_non_zeros_index →
      (c.next false).2.cur_num_non_zeros_index =
        c.cur_num_non_zeros_index + 1 - 2 * c.block_width ∧
      (c.next false).2.above_num_non_zero_index =
        c.above_num_non_zero_index + 1) := by
  unfold BlockContext.next
  constructor <;> intro hlt <;> split_ifs <;> simp_all <;> omega

theorem c1_next_row_fold_witness :
    ((3 : Int) ≠ (7 : Int)) ∧
    (BlockContext.next ⟨4, 0, 4, 3, 7⟩ false).2.above_num_non_zero_index =
      7 + 1 - 2 * 4 := by
  refine ⟨by decide, ?_⟩
  exact ((c1_next_row_fold ⟨4, 0, 4, 3, 7⟩ (by decide)).1 (by decide)).1

/-! ### C10: get_block below the store's offset -/

/-- C10 as stated is false on the code: for a store whose dpos_offset is
2^31 - 1 holding two blocks, querying position -2^31 makes the 32-bit
difference dpos - dpos_offset wrap around to 1, which is below the length
2, so get_block returns the second stored block instead of the shared
empty block. -/
theorem c10_counterexample :
    (-(2 ^ 31) : Int) < (2 ^ 31 - 1 : Int) ∧
    BlockBasedImage.get_block ⟨1, 2, 2 ^ 31 - 1, [EMPTY, ⟨List.replicate 64 1⟩], 2⟩
      (-(2 ^ 31)) ≠ EMPTY := by
  decide

/-- C10 (amended): for every well-formed store and every position dpos
with dpos_offset - 2^31 <= dpos < dpos_offset (so the 32-bit difference
does not wrap into the nonnegative range), the difference cast to an
unsigned index is at least the store's length and get_block returns the
shared all-zero empty block. -/
theorem c10_get_block_below_offset (s : BlockBasedImage) (dpos : Int)
    (hwf : s.WF) (hlt : dpos < s.dpos_offset)
    (hge : s.dpos_offset - 2 ^ 31 ≤ dpos) :
    s.get_block dpos = EMPTY := by
  obtain ⟨-, -, hlen, hcap⟩ := hwf
  have hidx : s.image.length ≤ s.localIndex dpos := by
    unfold BlockBasedImage.localIndex i32wrap usizeOfI32
    omega
  unfold BlockBasedImage.get_block
  rw [if_pos hidx]

theorem c10_get_block_below_offset_witness :
    BlockBasedImage.get_block ⟨1, 2, 5, [⟨List.replicate 64 1⟩], 1⟩ 3 = EMPTY :=
  c10_get_block_below_offset ⟨1, 2, 5, [⟨List.replicate 64 1⟩], 1⟩ 3
    (by decide) (by decide) (by decide)

/-! ### C9: the 7x7 nonzero count -/

theorem length_filter_range_eq_card (f : Nat → Bool) (n : Nat) :
    ((List.range n).filter f).length =
      ((Finset.range n).filter (fun i => f i = true)).card := by
  induction n with
  | zero => rfl
  | succ m ih =>
    rw [List.range_succ, List.filter_append, List.length_append,
      Finset.range_succ, Finset.filter_insert]
    by_cases hf : f m = true
    · rw [if_pos hf, Finset.card_insert_of_not_mem (by simp), ← ih]
      simp [hf]
    · rw [if_neg hf, ← ih]
      simp [hf]

/-- C9: get_count_of_non_zeros_7x7 returns exactly the number of aligned
indices in [0,49) holding a nonzero coefficient; writing any aligned index
49 or above, the DC slot included, never changes the result; and the
result is at most 49. -/
theorem c9_count_of_non_zeros_7x7 :
    (∀ b : AlignedBlock,
      b.get_count_of_non_zeros_7x7 =
        ((Finset.range 49).filter (fun i => b.get_coefficient i ≠ 0)).card) ∧
    (∀ (b : AlignedBlock) (j : Nat), 49 ≤ j → ∀ v : Int,
      (b.set_coefficient j v).get_count_of_non_zeros_7x7 =
        b.get_count_of_non_zeros_7x7) ∧
    (∀ (b : AlignedBlock) (v : Int),
      (b.set_dc v).get_count_of_non_zeros_7x7 = b.get_count_of_non_zeros_7x7) ∧
    (∀ b : AlignedBlock, b.get_count_of_non_zeros_7x7 ≤ 49) := by
  have hhigh : ∀ (b : AlignedBlock) (j : Nat), 49 ≤ j → ∀ v : Int,
      (b.set_coefficient j v).get_count_of_non_zeros_7x7 =
        b.get_count_of_non_zeros_7x7 := by
    intro b j hj v
    unfold AlignedBlock.get_count_of_non_zeros_7x7 AlignedBlock.set_coefficient
    refine congrArg List.length (List.filter_congr ?_)
    intro x hx
    have hxlt : x < 49 := List.mem_range.mp hx
    rw [show (⟨b.raw_data.set j v⟩ : AlignedBlock).raw_data = b.raw_data.set j v
      from rfl]
    rw [getD_set_ne (by omega)]
  refine ⟨?_, hhigh, ?_, ?_⟩
  · intro b
    unfold AlignedBlock.get_count_of_non_zeros_7x7 AlignedBlock.get_coefficient
    rw [length_filter_range_eq_card]
    refine congrArg Finset.card (Finset.filter_congr ?_)
    intro x _
    simp [bne_iff_ne]
  · intro b v
    exact hhigh b ALIGNED_BLOCK_INDEX_DC_INDEX (by decide) v
  · intro b
    unfold AlignedBlock.get_count_of_non_zeros_7x7
    calc ((List.range 49).filter (fun index => b.raw_data.getD index 0 != 0)).length
        ≤ (List.range 49).length := List.length_filter_le _ _
      _ = 49 := List.length_range 49

theorem c9_count_of_non_zeros_7x7_witness :
    (49 : Nat) ≤ 50 ∧
    ((EMPTY.set_coefficient 50 5).get_count_of_non_zeros_7x7 =
      EMPTY.get_count_of_non_zeros_7x7) :=
  ⟨by decide, c9_count_of_non_zeros_7x7.2.1 EMPTY 50 (by decide) 5⟩

/-! ### C3: zigzag and raster addressing -/

/-- C3: writing through set_coefficient_zigzag and reading back through
get_coefficient_zigzag at the same index returns the written value, and
likewise for the raster accessors; both index translation tables are
injective maps of [0,64) into [0,64), hence pure bijections over [0,64). -/
theorem c3_zigzag_raster_roundtrip :
    (∀ (b : AlignedBlock) (i : Nat) (v : Int), b.raw_data.length = 64 →
      i < 64 → (b.set_coefficient_zigzag i v).get_coefficient_zigzag i = v) ∧
    (∀ (b : AlignedBlock) (i : Nat) (v : Int), b.raw_data.length = 64 →
      i < 64 → (b.set_coefficient_raster i v).get_coefficient_raster i = v) ∧
    (∀ i, i < 64 → ZIGZAG_TO_ALIGNED.getD i 0 < 64) ∧
    (∀ i, i < 64 → ∀ j, j < 64 →
      ZIGZAG_TO_ALIGNED.getD i 0 = ZIGZAG_TO_ALIGNED.getD j 0 → i = j) ∧
    (∀ i, i < 64 → RASTER_TO_ALIGNED.getD i 0 < 64) ∧
    (∀ i, i < 64 → ∀ j, j < 64 →
      RASTER_TO_ALIGNED.getD i 0 = RASTER_TO_ALIGNED.getD j 0 → i = j) := by
  have hzr : ∀ i, i < 64 → ZIGZAG_TO_ALIGNED.getD i 0 < 64 := by decide
  have hrr : ∀ i, i < 64 → RASTER_TO_ALIGNED.getD i 0 < 64 := by decide
  refine ⟨?_, ?_, hzr, by decide, hrr, by decide⟩
  · intro b i v hlen hi
    unfold AlignedBlock.get_coefficient_zigzag AlignedBlock.set_coefficient_zigzag
      AlignedBlock.get_coefficient AlignedBlock.set_coefficient
    exact getD_set_eq (by rw [hlen]; exact hzr i hi)
  · intro b i v hlen hi
    unfold AlignedBlock.get_coefficient_raster AlignedBlock.set_coefficient_raster
      AlignedBlock.get_coefficient AlignedBlock.set_coefficient
    exact getD_set_eq (by rw [hlen]; exact hrr i hi)

theorem c3_zigzag_raster_roundtrip_witness :
    (EMPTY.raw_data.length = 64 ∧ (5 : Nat) < 64) ∧
    (EMPTY.set_coefficient_zigzag 5 11).get_coefficient_zigzag 5 = 11 ∧
    (EMPTY.set_coefficient_raster 9 13).get_coefficient_raster 9 = 13 :=
  ⟨⟨by decide, by decide⟩,
    c3_zigzag_raster_roundtrip.1 EMPTY 5 11 (by decide) (by decide),
    c3_zigzag_raster_roundtrip.2.1 EMPTY 9 13 (by decide) (by decide)⟩

/-! ### The fill loop and the accessors built on it -/

theorem fillLoopGo_spec (cap slot : Nat) :
    ∀ (fuel : Nat) (img : List AlignedBlock), fuel = slot + 1 - img.length →
      fillLoopGo cap slot fuel img =
        if img.length ≤ slot then
          (if slot < cap then
            some (img ++ List.replicate (slot + 1 - img.length) EMPTY)
          else none)
        else some img := by
  intro fuel
  induction fuel with
  | zero =>
    intro img hf
    unfold fillLoopGo
    rw [if_neg (by omega)]
  | succ n ih =>
    intro img hf
    have hlen : img.length ≤ slot := by omega
    unfold fillLoopGo
    rw [if_pos hlen]
    by_cases hcap : cap ≤ img.length
    · rw [if_pos hcap, if_pos hlen, if_neg (by omega)]
    · rw [if_neg hcap]
      rw [ih (img ++ [EMPTY]) (by simp; omega)]
      simp only [List.length_append, List.length_singleton]
      by_cases hmore : img.length + 1 ≤ slot
      · rw [if_pos hmore, if_pos hlen]
        by_cases hsc : slot < cap
        · rw [if_pos hsc, if_pos hsc, List.append_assoc,
            show slot + 1 - img.length = (slot + 1 - (img.length + 1)) + 1 from
              by omega,
            List.replicate_succ]
          rfl
        · rw [if_neg hsc, if_neg hsc]
      · rw [if_neg hmore, if_pos hlen, if_pos (by omega),
          show slot + 1 - img.length = 1 from by omega]
        rfl

theorem fillLoop_spec (cap slot : Nat) (img : List AlignedBlock) :
    fillLoop cap slot img =
      if img.length ≤ slot then
        (if slot < cap then
          some (img ++ List.replicate (slot + 1 - img.length) EMPTY)
        else none)
      else some img :=
  fillLoopGo_spec cap slot _ img rfl

theorem fill_up_to_dpos_none_of_empty (s : BlockBasedImage) (p : Int)
    (h1 : s.image = []) (h2 : p ≠ s.dpos_offset) :
    s.fill_up_to_dpos p = none := by
  unfold BlockBasedImage.fill_up_to_dpos
  rw [if_pos ⟨by rw [h1]; rfl, fun he => h2 he.symm⟩]

theorem fill_up_to_dpos_none_of_capacity (s : BlockBasedImage) (p : Int)
    (h1 : s.dpos_offset ≤ p) (h2 : s.image.length ≤ s.localIndex p)
    (h3 : s.capacity ≤ s.localIndex p) :
    s.fill_up_to_dpos p = none := by
  unfold BlockBasedImage.fill_up_to_dpos
  by_cases hc : s.image.length = 0 ∧ ¬s.dpos_offset = p
  · rw [if_pos hc]
  · rw [if_neg hc, if_neg (by omega), fillLoop_spec,
      if_pos h2, if_neg (by omega)]

theorem fill_up_to_dpos_some (s : BlockBasedImage) (p : Int)
    (hfirst : s.image = [] → s.dpos_offset = p) (hge : s.dpos_offset ≤ p)
    (hlt : s.localIndex p < s.capacity) :
    ∃ t, s.fill_up_to_dpos p = some t ∧ t.dpos_offset = s.dpos_offset ∧
      t.capacity = s.capacity ∧ s.localIndex p < t.image.length := by
  unfold BlockBasedImage.fill_up_to_dpos
  rw [if_neg (by
    rintro ⟨h1, h2⟩
    exact h2 (hfirst (List.length_eq_zero.mp h1)))]
  rw [if_neg (by omega), fillLoop_spec]
  by_cases hls : s.image.length ≤ s.localIndex p
  · rw [if_pos hls, if_pos hlt]
    refine ⟨_, rfl, rfl, rfl, ?_⟩
    show s.localIndex p <
      (s.image ++
        List.replicate (s.localIndex p + 1 - s.image.length) EMPTY).length
    simp only [List.length_append, List.length_replicate]
    omega
  · rw [if_neg hls]
    refine ⟨_, rfl, rfl, rfl, ?_⟩
    show s.localIndex p < s.image.length
    omega

/-! ### C7: first-fill position check and the capacity guard -/

/-- C7: on a still-empty store, any fill through set_block_data,
get_block_mut or get_blocks_mut aborts unless the target position equals
dpos_offset exactly; and any fill whose computed local slot would require
growing past the reserved capacity aborts instead of growing. -/
theorem c7_fill_guards :
    (∀ (s : BlockBasedImage) (p : Int) (bd : List Int) (a l al : Int),
      s.image = [] → p ≠ s.dpos_offset →
      s.set_block_data p bd = none ∧ s.get_block_mut p = none ∧
        s.get_blocks_mut a l al p = none) ∧
    (∀ (s : BlockBasedImage) (p : Int) (bd : List Int) (a l al : Int),
      s.dpos_offset ≤ p → s.image.length ≤ s.localIndex p →
      s.capacity ≤ s.localIndex p →
      s.set_block_data p bd = none ∧ s.get_block_mut p = none ∧
        s.get_blocks_mut a l al p = none) := by
  have propagate : ∀ (s : BlockBasedImage) (p : Int) (bd : List Int)
      (a l al : Int), s.fill_up_to_dpos p = none →
      s.set_block_data p bd = none ∧ s.get_block_mut p = none ∧
        s.get_blocks_mut a l al p = none := by
    intro s p bd a l al hfill
    refine ⟨?_, ?_, ?_⟩
    · unfold BlockBasedImage.set_block_data
      rw [hfill]
    · unfold BlockBasedImage.get_block_mut
      rw [hfill]
    · unfold BlockBasedImage.get_blocks_mut
      rw [hfill]
  constructor
  · intro s p bd a l al h1 h2
    exact propagate s p bd a l al (fill_up_to_dpos_none_of_empty s p h1 h2)
  · intro s p bd a l al h1 h2 h3
    exact propagate s p bd a l al (fill_up_to_dpos_none_of_capacity s p h1 h2 h3)

theorem c7_fill_guards_witness :
    (BlockBasedImage.set_block_data ⟨1, 2, 0, [], 2⟩ 1 (List.replicate 64 7)
        = none) ∧
    BlockBasedImage.set_block_data ⟨1, 2, 0, [EMPTY], 1⟩ 1 (List.replicate 64 7)
        = none :=
  ⟨(c7_fill_guards.1 ⟨1, 2, 0, [], 2⟩ 1 (List.replicate 64 7) 0 0 0 rfl
      (by decide)).1,
    (c7_fill_guards.2 ⟨1, 2, 0, [EMPTY], 1⟩ 1 (List.replicate 64 7) 0 0 0
      (by decide) (by decide) (by decide)).1⟩

/-! ### C4: set_block_data followed by get_block, and unwritten positions -/

/-- C4 as stated is false on the code: the store below is empty with
dpos_offset 0 and capacity 2, and position 1 satisfies the claim's
hypotheses (at or above the offset, local slot within capacity), yet
set_block_data aborts on the first-fill assertion (the first write to an
empty store must target dpos_offset exactly), so no store holding the
written block results. -/
theorem c4_counterexample :
    (0 : Int) ≤ 1 ∧ ((1 : Int) - 0).toNat < 2 ∧
    BlockBasedImage.set_block_data ⟨1, 2, 0, [], 2⟩ 1 (List.replicate 64 7)
      = none := by
  decide

/-- C4 (amended): for every well-formed store and position p at or above
dpos_offset whose local slot is within the reserved capacity, and which is
exactly dpos_offset whenever the store is still empty, set_block_data
succeeds and get_block then returns the written coefficients; and
get_block at any position whose local slot is at or beyond the current
length returns the shared all-zero empty block. -/
theorem c4_set_block_get_block :
    (∀ (s : BlockBasedImage) (p : Int) (bd : List Int),
      s.WF → s.dpos_offset ≤ p → (p - s.dpos_offset).toNat < s.capacity →
      (s.image = [] → s.dpos_offset = p) →
      ∃ t, s.set_block_data p bd = some t ∧ t.get_block p = ⟨bd⟩) ∧
    (∀ (s : BlockBasedImage) (q : Int),
      s.WF → s.dpos_offset ≤ q → q - s.dpos_offset < 2 ^ 31 →
      s.image.length ≤ (q - s.dpos_offset).toNat →
      s.get_block q = EMPTY) := by
  constructor
  · intro s p bd hwf hge hcap hfirst
    obtain ⟨-, -, -, hcap31⟩ := hwf
    have hloc : s.localIndex p = (p - s.dpos_offset).toNat :=
      localIndex_eq hge (by omega)
    obtain ⟨t, hfill, hoff, htcap, hlen⟩ :=
      fill_up_to_dpos_some s p hfirst hge (by omega)
    have hloct : t.localIndex p = s.localIndex p := by
      unfold BlockBasedImage.localIndex
      rw [hoff]
    refine ⟨{ t with image := t.image.set (t.localIndex p) ⟨bd⟩ }, ?_, ?_⟩
    · unfold BlockBasedImage.set_block_data
      rw [hfill]
    · unfold BlockBasedImage.get_block
      have hu : ({ t with image := t.image.set (t.localIndex p) ⟨bd⟩ }
          : BlockBasedImage).localIndex p = s.localIndex p := by
        unfold BlockBasedImage.localIndex
        rw [show ({ t with image := t.image.set (t.localIndex p) ⟨bd⟩ }
          : BlockBasedImage).dpos_offset = t.dpos_offset from rfl, hoff]
      rw [hu]
      rw [if_neg (by
        simp only [List.length_set]
        omega)]
      simp only [hloct]
      exact getD_set_eq (by omega)
  · intro s q hwf hge hlt hbeyond
    obtain ⟨-, -, -, -⟩ := hwf
    unfold BlockBasedImage.get_block
    rw [if_pos (by rw [localIndex_eq hge hlt]; omega)]

theorem c4_set_block_get_block_witness :
    (∃ t, BlockBasedImage.set_block_data ⟨1, 2, 0, [], 2⟩ 0
        (List.replicate 64 7) = some t ∧
      t.get_block 0 = ⟨List.replicate 64 7⟩) ∧
    BlockBasedImage.get_block ⟨1, 2, 0, [EMPTY], 1⟩ 5 = EMPTY :=
  ⟨c4_set_block_get_block.1 ⟨1, 2, 0, [], 2⟩ 0 (List.replicate 64 7)
      (by decide) (by decide) (by decide) (fun _ => rfl),
    c4_set_block_get_block.2 ⟨1, 2, 0, [EMPTY], 1⟩ 5 (by decide) (by decide)
      (by decide) (by decide)⟩

/-! ### C5: geometry of a freshly constructed store -/

/-- C5: for valid geometry (positive luma block height, nonnegative
component dimensions and row range) with the offset in i32 range, new
succeeds with an empty store whose reserved capacity is the ceiling of
bch * bcv * (y_end - y_start) / luma_bcv (characterized by the two
capacity inequalities) and whose dpos_offset is the floor of
bch * bcv * y_start / luma_bcv (characterized by the two offset
inequalities); the i64 intermediates are exact, so they are modelled as
unbounded integers. -/
theorem c5_new_capacity_offset (bch bcv luma_bcv y_start y_end : Int)
    (hL : 0 < luma_bcv) (hb : 0 ≤ bch) (hv : 0 ≤ bcv)
    (hy0 : 0 ≤ y_start) (hy : y_start ≤ y_end)
    (hrep : bch * bcv * y_start < 2 ^ 31 * luma_bcv) :
    ∃ s, BlockBasedImage.new bch bcv luma_bcv y_start y_end = some s ∧
      s.block_width = bch ∧ s.original_height = bcv ∧ s.image = [] ∧
      luma_bcv * ((s.capacity : Int) - 1) < bch * bcv * (y_end - y_start) ∧
      bch * bcv * (y_end - y_start) ≤ luma_bcv * (s.capacity : Int) ∧
      luma_bcv * s.dpos_offset ≤ bch * bcv * y_start ∧
      bch * bcv * y_start < luma_bcv * s.dpos_offset + luma_bcv := by
  have hA : 0 ≤ bch * bcv * (y_end - y_start) :=
    mul_nonneg (mul_nonneg hb hv) (by omega)
  have hB : 0 ≤ bch * bcv * y_start := mul_nonneg (mul_nonneg hb hv) hy0
  have hnum : 0 ≤ bch * bcv * (y_end - y_start) + (luma_bcv - 1) := by omega
  have hcapdiv : (bch * bcv * (y_end - y_start) + (luma_bcv - 1)).tdiv luma_bcv
      = (bch * bcv * (y_end - y_start) + (luma_bcv - 1)) / luma_bcv :=
    Int.tdiv_eq_ediv hnum (le_of_lt hL)
  have hoffdiv : (bch * bcv * y_start).tdiv luma_bcv
      = bch * bcv * y_start / luma_bcv :=
    Int.tdiv_eq_ediv hB (le_of_lt hL)
  have hq := Int.ediv_add_emod
    (bch * bcv * (y_end - y_start) + (luma_bcv - 1)) luma_bcv
  have hr0 := Int.emod_nonneg
    (bch * bcv * (y_end - y_start) + (luma_bcv - 1)) (by omega : luma_bcv ≠ 0)
  have hr1 := Int.emod_lt_of_pos
    (bch * bcv * (y_end - y_start) + (luma_bcv - 1)) hL
  have hq2 := Int.ediv_add_emod (bch * bcv * y_start) luma_bcv
  have hr2a := Int.emod_nonneg (bch * bcv * y_start) (by omega : luma_bcv ≠ 0)
  have hr2b := Int.emod_lt_of_pos (bch * bcv * y_start) hL
  have hcap0 : 0 ≤ (bch * bcv * (y_end - y_start) + (luma_bcv - 1)) / luma_bcv :=
    Int.ediv_nonneg hnum (le_of_lt hL)
  have hoff0 : 0 ≤ bch * bcv * y_start / luma_bcv :=
    Int.ediv_nonneg hB (le_of_lt hL)
  have hofflt : bch * bcv * y_start / luma_bcv < 2 ^ 31 := by
    refine lt_of_mul_lt_mul_left ?_ (le_of_lt hL)
    calc luma_bcv * (bch * bcv * y_start / luma_bcv)
        ≤ bch * bcv * y_start := by linarith
      _ < 2 ^ 31 * luma_bcv := hrep
      _ = luma_bcv * 2 ^ 31 := by ring
  have hcast : (((bch * bcv * (y_end - y_start) + (luma_bcv - 1)) / luma_bcv).toNat
      : Int) = (bch * bcv * (y_end - y_start) + (luma_bcv - 1)) / luma_bcv :=
    Int.toNat_of_nonneg hcap0
  unfold BlockBasedImage.new
  rw [if_neg (by omega : ¬luma_bcv = 0), hcapdiv, hoffdiv, if_pos hcap0,
    if_pos ⟨by omega, hofflt⟩]
  refine ⟨_, rfl, rfl, rfl, rfl, ?_, ?_, ?_, ?_⟩
  · show luma_bcv *
      ((((bch * bcv * (y_end - y_start) + (luma_bcv - 1)) / luma_bcv).toNat
        : Int) - 1) < bch * bcv * (y_end - y_start)
    rw [hcast]
    nlinarith [hq, hr0, hr1]
  · show bch * bcv * (y_end - y_start) ≤ luma_bcv *
      (((bch * bcv * (y_end - y_start) + (luma_bcv - 1)) / luma_bcv).toNat : Int)
    rw [hcast]
    nlinarith [hq, hr0, hr1]
  · show luma_bcv * (bch * bcv * y_start / luma_bcv) ≤ bch * bcv * y_start
    linarith
  · show bch * bcv * y_start < luma_bcv * (bch * bcv * y_start / luma_bcv) + luma_bcv
    linarith

theorem c5_new_capacity_offset_witness :
    ∃ s, BlockBasedImage.new 2 4 4 1 3 = some s ∧ s.image = [] := by
  obtain ⟨s, h1, hbw, hoh, him, -⟩ :=
    c5_new_capacity_offset 2 4 4 1 3 (by norm_num) (by norm_num) (by norm_num)
      (by norm_num) (by norm_num) (by norm_num)
  exact ⟨s, h1, him⟩

/-! ### Merging per-thread stores: helper lemmas -/

theorem totalLen_cons (s : BlockBasedImage) (rest : List BlockBasedImage) :
    totalLen (s :: rest) = s.image.length + totalLen rest := by
  simp [totalLen]

theorem prefixLen_cons_succ (s : BlockBasedImage) (rest : List BlockBasedImage)
    (i : Nat) :
    prefixLen (s :: rest) (i + 1) = s.image.length + prefixLen rest i := by
  simp [prefixLen, List.take_succ_cons]

theorem prefixLen_le_totalLen (l : List BlockBasedImage) (i : Nat) :
    prefixLen l i ≤ totalLen l := by
  unfold prefixLen totalLen
  conv_rhs => rw [← List.take_append_drop i l]
  rw [List.map_append, List.sum_append]
  omega

theorem prefixLen_succ_get (l : List BlockBasedImage) (i : Nat)
    (hi : i < l.length) :
    prefixLen l (i + 1) = prefixLen l i + (l.get ⟨i, hi⟩).image.length := by
  unfold prefixLen
  rw [show l.take (i + 1) = l.take i ++ [l.get ⟨i, hi⟩] by
    rw [List.take_succ, List.getElem?_eq_getElem hi]
    simp [List.get_eq_getElem]]
  rw [List.map_append, List.sum_append]
  simp

theorem checkSame_some {cur : Option Int} {v w : Int}
    (h : checkSame cur v = some w) : w = v := by
  cases cur with
  | none => exact (Option.some.inj h).symm
  | some u =>
    simp only [checkSame] at h
    by_cases hu : u = v
    · rw [if_pos hu] at h
      rw [← Option.some.inj h, hu]
    · rw [if_neg hu] at h
      cases h

theorem checkSame_some_left {u v w : Int}
    (h : checkSame (some u) v = some w) : u = v ∧ w = u := by
  simp only [checkSame] at h
  by_cases hu : u = v
  · rw [if_pos hu] at h
    exact ⟨hu, (Option.some.inj h).symm⟩
  · rw [if_neg hu] at h
    cases h

theorem mergeLoop_ok (w h : Int) :
    ∀ (l : List BlockBasedImage) (c : List AlignedBlock),
      (∀ i, ∀ hi : i < l.length,
        (l.get ⟨i, hi⟩).dpos_offset = i32wrap (c.length + prefixLen l i)) →
      (∀ s ∈ l, s.block_width = w) →
      (∀ s ∈ l, s.original_height = h) →
      mergeLoop l c (some w) (some h) =
        some (c ++ (l.map (fun s => s.image)).flatten, some w, some h)
  | [], c, _, _, _ => by simp [mergeLoop]
  | s :: rest, c, hoff, hw, hh => by
    unfold mergeLoop
    have h0 : s.dpos_offset = i32wrap c.length := by
      have h1 := hoff 0 (by simp)
      simpa [prefixLen] using h1
    rw [if_pos h0]
    have hcw : checkSame (some w) s.block_width = some w := by
      simp only [checkSame]
      rw [if_pos (hw s (by simp)).symm]
    have hch : checkSame (some h) s.original_height = some h := by
      simp only [checkSame]
      rw [if_pos (hh s (by simp)).symm]
    rw [hcw, hch]
    show mergeLoop rest (c ++ s.image) (some w) (some h) = _
    rw [mergeLoop_ok w h rest (c ++ s.image)
      (by
        intro i hi
        have h2 := hoff (i + 1) (by simpa using Nat.succ_lt_succ hi)
        rw [List.get_cons_succ] at h2
        rw [h2]
        congr 1
        push_cast [prefixLen_cons_succ, List.length_append]
        ring)
      (fun s2 hs2 => hw s2 (List.mem_cons_of_mem _ hs2))
      (fun s2 hs2 => hh s2 (List.mem_cons_of_mem _ hs2))]
    simp [List.append_assoc]


theorem mergeLoop_offsets :
    ∀ (l : List BlockBasedImage) (c : List AlignedBlock) (bw oh : Option Int)
      (r : List AlignedBlock × Option Int × Option Int),
      mergeLoop l c bw oh = some r →
      ∀ i, ∀ hi : i < l.length,
        (l.get ⟨i, hi⟩).dpos_offset = i32wrap (c.length + prefixLen l i)
  | [], c, bw, oh, r, _ => by
    intro i hi
    simp at hi
  | s :: rest, c, bw, oh, r, hml => by
    unfold mergeLoop at hml
    by_cases hc : s.dpos_offset = i32wrap c.length
    · rw [if_pos hc] at hml
      cases hcw : checkSame bw s.block_width with
      | none =>
        rw [hcw] at hml
        simp at hml
      | some w2 =>
        cases hch : checkSame oh s.original_height with
        | none =>
          rw [hcw, hch] at hml
          simp at hml
        | some h2 =>
          rw [hcw, hch] at hml
          have hrec : mergeLoop rest (c ++ s.image) (some w2) (some h2)
              = some r := hml
          intro i hi
          match i with
          | 0 => simpa [prefixLen] using hc
          | j + 1 =>
            have h3 := mergeLoop_offsets rest (c ++ s.image) (some w2)
              (some h2) r hrec j (by simpa using Nat.lt_of_succ_lt_succ hi)
            rw [List.get_cons_succ, h3]
            congr 1
            push_cast [prefixLen_cons_succ, List.length_append]
            ring
    · rw [if_neg hc] at hml
      cases hml

theorem mergeLoop_width_all :
    ∀ (l : List BlockBasedImage) (c : List AlignedBlock) (w : Int)
      (oh : Option Int) (r : List AlignedBlock × Option Int × Option Int),
      mergeLoop l c (some w) oh = some r → ∀ s ∈ l, s.block_width = w
  | [], _, _, _, _, _ => by
    intro s hs
    cases hs
  | s :: rest, c, w, oh, r, hml => by
    unfold mergeLoop at hml
    by_cases hc : s.dpos_offset = i32wrap c.length
    · rw [if_pos hc] at hml
      cases hcw : checkSame (some w) s.block_width with
      | none =>
        rw [hcw] at hml
        simp at hml
      | some w2 =>
        cases hch : checkSame oh s.original_height with
        | none =>
          rw [hcw, hch] at hml
          simp at hml
        | some h2 =>
          rw [hcw, hch] at hml
          have hrec : mergeLoop rest (c ++ s.image) (some w2) (some h2)
              = some r := hml
          obtain ⟨hwv, hw2⟩ := checkSame_some_left hcw
          intro t ht
          rcases List.mem_cons.mp ht with rfl | ht2
          · exact hwv.symm
          · rw [mergeLoop_width_all rest (c ++ s.image) w2 (some h2) r
              hrec t ht2, hw2]
    · rw [if_neg hc] at hml
      cases hml

theorem mergeLoop_height_all :
    ∀ (l : List BlockBasedImage) (c : List AlignedBlock) (bw : Option Int)
      (h : Int) (r : List AlignedBlock × Option Int × Option Int),
      mergeLoop l c bw (some h) = some r → ∀ s ∈ l, s.original_height = h
  | [], _, _, _, _, _ => by
    intro s hs
    cases hs
  | s :: rest, c, bw, h, r, hml => by
    unfold mergeLoop at hml
    by_cases hc : s.dpos_offset = i32wrap c.length
    · rw [if_pos hc] at hml
      cases hcw : checkSame bw s.block_width with
      | none =>
        rw [hcw] at hml
        simp at hml
      | some w2 =>
        cases hch : checkSame (some h) s.original_height with
        | none =>
          rw [hcw, hch] at hml
          simp at hml
        | some h2 =>
          rw [hcw, hch] at hml
          have hrec : mergeLoop rest (c ++ s.image) (some w2) (some h2)
              = some r := hml
          obtain ⟨hhv, hh2⟩ := checkSame_some_left hch
          intro t ht
          rcases List.mem_cons.mp ht with rfl | ht2
          · exact hhv.symm
          · rw [mergeLoop_height_all rest (c ++ s.image) (some w2) h2 r
              hrec t ht2, hh2]
    · rw [if_neg hc] at hml
      cases hml

theorem mergeLoop_width_pairwise :
    ∀ (l : List BlockBasedImage) (c : List AlignedBlock) (bw oh : Option Int)
      (r : List AlignedBlock × Option Int × Option Int),
      mergeLoop l c bw oh = some r →
      ∀ s ∈ l, ∀ t ∈ l, s.block_width = t.block_width
  | [], _, _, _, _, _ => by
    intro s hs
    cases hs
  | s :: rest, c, bw, oh, r, hml => by
    unfold mergeLoop at hml
    by_cases hc : s.dpos_offset = i32wrap c.length
    · rw [if_pos hc] at hml
      cases hcw : checkSame bw s.block_width with
      | none =>
        rw [hcw] at hml
        simp at hml
      | some w2 =>
        cases hch : checkSame oh s.original_height with
        | none =>
          rw [hcw, hch] at hml
          simp at hml
        | some h2 =>
          rw [hcw, hch] at hml
          have hrec : mergeLoop rest (c ++ s.image) (some w2) (some h2)
              = some r := hml
          have hall : ∀ t ∈ s :: rest, t.block_width = w2 := by
            intro t ht
            rcases List.mem_cons.mp ht with rfl | ht2
            · exact (checkSame_some hcw).symm
            · exact mergeLoop_width_all rest (c ++ s.image) w2 (some h2) r
                hrec t ht2
          intro x hx y hy
          rw [hall x hx, hall y hy]
    · rw [if_neg hc] at hml
      cases hml

theorem mergeLoop_height_pairwise :
    ∀ (l : List BlockBasedImage) (c : List AlignedBlock) (bw oh : Option Int)
      (r : List AlignedBlock × Option Int × Option Int),
      mergeLoop l c bw oh = some r →
      ∀ s ∈ l, ∀ t ∈ l, s.original_height = t.original_height
  | [], _, _, _, _, _ => by
    intro s hs
    cases hs
  | s :: rest, c, bw, oh, r, hml => by
    unfold mergeLoop at hml
    by_cases hc : s.dpos_offset = i32wrap c.length
    · rw [if_pos hc] at hml
      cases hcw : checkSame bw s.block_width with
      | none =>
        rw [hcw] at hml
        simp at hml
      | some w2 =>
        cases hch : checkSame oh s.original_height with
        | none =>
          rw [hcw, hch] at hml
          simp at hml
        | some h2 =>
          rw [hcw, hch] at hml
          have hrec : mergeLoop rest (c ++ s.image) (some w2) (some h2)
              = some r := hml
          have hall : ∀ t ∈ s :: rest, t.original_height = h2 := by
            intro t ht
            rcases List.mem_cons.mp ht with rfl | ht2
            · exact (checkSame_some hch).symm
            · exact mergeLoop_height_all rest (c ++ s.image) (some w2) h2 r
                hrec t ht2
          intro x hx y hy
          rw [hall x hx, hall y hy]
    · rw [if_neg hc] at hml
      cases hml


theorem flatten_map_length (l : List BlockBasedImage) :
    ((l.map (fun s => s.image)).flatten).length = totalLen l := by
  induction l with
  | nil => rfl
  | cons s rest ih => simp [totalLen, List.flatten_cons, ih]

theorem flatten_getD (d : AlignedBlock) :
    ∀ (ls : List (List AlignedBlock)) (i : Nat) (hi : i < ls.length) (k : Nat),
      k < (ls.get ⟨i, hi⟩).length →
      ls.flatten.getD ((((ls.take i).map List.length).sum) + k) d =
        (ls.get ⟨i, hi⟩).getD k d
  | [], i, hi, _, _ => by simp at hi
  | x :: xs, 0, _, k, hk => by
    simp only [List.take_zero, List.map_nil, List.sum_nil, Nat.zero_add,
      List.flatten_cons]
    rw [List.getD_eq_getElem?_getD, List.getD_eq_getElem?_getD,
      List.getElem?_append_left (by exact hk)]
    rfl
  | x :: xs, i + 1, hi, k, hk => by
    rw [List.take_succ_cons, List.map_cons, List.sum_cons, List.flatten_cons,
      List.getD_eq_getElem?_getD, Nat.add_assoc,
      List.getElem?_append_right (by omega :
        x.length ≤ x.length + (((xs.take i).map List.length).sum + k)),
      show x.length + (((xs.take i).map List.length).sum + k) - x.length =
        ((xs.take i).map List.length).sum + k from by omega,
      ← List.getD_eq_getElem?_getD]
    exact flatten_getD d xs i (by simpa using Nat.lt_of_succ_lt_succ hi) k
      (by simpa using hk)

theorem mergeLoop_cons_none (s : BlockBasedImage) (rest : List BlockBasedImage)
    (c : List AlignedBlock) (h0 : s.dpos_offset = i32wrap c.length) :
    mergeLoop (s :: rest) c none none =
      mergeLoop rest (c ++ s.image) (some s.block_width)
        (some s.original_height) := by
  conv_lhs => rw [mergeLoop]
  rw [if_pos h0]
  simp only [checkSame]

/-- C6: merge aborts (returns no merged store) whenever some store's
dpos_offset differs from the running total length accumulated so far, or
whenever any two stores being merged differ in block_width or in
original_height.  The total-size hypothesis keeps the usize-to-i32 cast of
the running length exact and holds for any real collection of stores of
one component. -/
theorem c6_merge_mismatch_fails (l : List BlockBasedImage)
    (htot : totalLen l < 2 ^ 31)
    (hbad :
      (∃ i, ∃ hi : i < l.length,
        (l.get ⟨i, hi⟩).dpos_offset ≠ (prefixLen l i : Int)) ∨
      (∃ s ∈ l, ∃ t ∈ l, s.block_width ≠ t.block_width) ∨
      (∃ s ∈ l, ∃ t ∈ l, s.original_height ≠ t.original_height)) :
    BlockBasedImage.merge l = none := by
  cases hml : mergeLoop l [] none none with
  | none =>
    unfold BlockBasedImage.merge
    rw [hml]
  | some r =>
    exfalso
    rcases hbad with ⟨i, hi, hne⟩ | ⟨s, hs, t, ht, hne⟩ | ⟨s, hs, t, ht, hne⟩
    · apply hne
      have h1 := mergeLoop_offsets l [] none none r hml i hi
      simp only [List.length_nil, Nat.cast_zero, zero_add] at h1
      rw [h1]
      refine i32wrap_of_range (by omega) ?_
      have h2 := prefixLen_le_totalLen l i
      omega
    · exact hne (mergeLoop_width_pairwise l [] none none r hml s hs t ht)
    · exact hne (mergeLoop_height_pairwise l [] none none r hml s hs t ht)


theorem get_block_of_offset_zero (m : BlockBasedImage)
    (hoff0 : m.dpos_offset = 0) (p : Nat) (hp : p < m.image.length)
    (hlt : p < 2 ^ 31) :
    m.get_block p = m.image.getD p EMPTY := by
  have hloc : m.localIndex p = p := by
    unfold BlockBasedImage.localIndex
    rw [hoff0]
    unfold i32wrap usizeOfI32
    omega
  unfold BlockBasedImage.get_block
  rw [hloc, if_neg (by omega)]

/-- C2 (amended): for every nonempty collection of per-thread stores for
one component (with total block count in i32 range) in which each store's
dpos_offset equals the number of blocks held by the stores before it, and
all stores agree on block_width and on original_height, merge returns a
store with dpos_offset 0 holding the concatenation of the inputs in
order: its length is the sum of the input lengths and its block at global
position prefixLen l i + k is block k of input store i. -/
theorem c2_merge_concat (l : List BlockBasedImage) (hne : l ≠ [])
    (htot : totalLen l < 2 ^ 31)
    (hoff : ∀ i, ∀ hi : i < l.length,
      (l.get ⟨i, hi⟩).dpos_offset = (prefixLen l i : Int))
    (hdims : ∀ s ∈ l, ∀ t ∈ l,
      s.block_width = t.block_width ∧ s.original_height = t.original_height) :
    ∃ m, BlockBasedImage.merge l = some m ∧ m.dpos_offset = 0 ∧
      m.image.length = totalLen l ∧
      m.image = (l.map (fun s => s.image)).flatten ∧
      (∀ i, ∀ hi : i < l.length, ∀ k : Nat,
        k < (l.get ⟨i, hi⟩).image.length →
        m.get_block ((prefixLen l i : Int) + (k : Int)) =
          (l.get ⟨i, hi⟩).image.getD k EMPTY) := by
  obtain ⟨s0, rest, rfl⟩ := List.exists_cons_of_ne_nil hne
  have h00 : s0.dpos_offset = i32wrap (([] : List AlignedBlock)).length := by
    have h := hoff 0 (by simp)
    simp [prefixLen] at h
    rw [h]
    decide
  have hml : mergeLoop (s0 :: rest) [] none none =
      some (([] ++ s0.image) ++ (rest.map (fun s => s.image)).flatten,
        some s0.block_width, some s0.original_height) := by
    rw [mergeLoop_cons_none s0 rest [] h00]
    refine mergeLoop_ok s0.block_width s0.original_height rest ([] ++ s0.image)
      ?_ ?_ ?_
    · intro i hi
      have h2 := hoff (i + 1) (by simpa using Nat.succ_lt_succ hi)
      rw [List.get_cons_succ] at h2
      rw [h2]
      have harg : ((([] ++ s0.image) : List AlignedBlock).length : Int) +
          (prefixLen rest i : Int) = ((prefixLen (s0 :: rest) (i + 1) : Nat) : Int) := by
        push_cast [prefixLen_cons_succ, List.nil_append]
        ring
      rw [← harg]
      have h3 := prefixLen_le_totalLen (s0 :: rest) (i + 1)
      refine (i32wrap_of_range (by omega) (by omega)).symm
    · intro s2 hs2
      exact (hdims s2 (List.mem_cons_of_mem _ hs2) s0 (by simp)).1
    · intro s2 hs2
      exact (hdims s2 (List.mem_cons_of_mem _ hs2) s0 (by simp)).2
  refine ⟨⟨s0.block_width, s0.original_height, 0,
      ([] ++ s0.image) ++ (rest.map (fun s => s.image)).flatten,
      totalLen (s0 :: rest)⟩, ?_, rfl, ?_, ?_, ?_⟩
  · unfold BlockBasedImage.merge
    rw [hml]
    rfl
  · show (([] ++ s0.image) ++ (rest.map (fun s : BlockBasedImage => s.image)).flatten).length
      = totalLen (s0 :: rest)
    rw [List.length_append, List.length_append, flatten_map_length,
      totalLen_cons, List.length_nil]
    omega
  · show (([] ++ s0.image) ++ (rest.map (fun s : BlockBasedImage => s.image)).flatten)
      = ((s0 :: rest).map (fun s : BlockBasedImage => s.image)).flatten
    simp
  · intro i hi k hk
    have h5 := prefixLen_succ_get (s0 :: rest) i hi
    have h6 := prefixLen_le_totalLen (s0 :: rest) (i + 1)
    have hlen : (([] ++ s0.image) ++
          (rest.map (fun s : BlockBasedImage => s.image)).flatten).length
        = totalLen (s0 :: rest) := by
      rw [List.length_append, List.length_append, flatten_map_length,
        totalLen_cons, List.length_nil]
      omega
    have hcast : ((prefixLen (s0 :: rest) i : Int) + (k : Int)) =
        ((prefixLen (s0 :: rest) i + k : Nat) : Int) := by
      push_cast
      ring
    rw [hcast]
    rw [get_block_of_offset_zero _ rfl (prefixLen (s0 :: rest) i + k)
      (by rw [hlen]; omega) (by omega)]
    show (([] ++ s0.image) ++ (rest.map (fun s : BlockBasedImage => s.image)).flatten).getD
      (prefixLen (s0 :: rest) i + k) EMPTY
      = ((s0 :: rest).get ⟨i, hi⟩).image.getD k EMPTY
    rw [show (([] ++ s0.image) ++ (rest.map (fun s : BlockBasedImage => s.image)).flatten)
      = ((s0 :: rest).map (fun s : BlockBasedImage => s.image)).flatten from by simp]
    have hsum : ((((s0 :: rest).map (fun s : BlockBasedImage => s.image)).take
        i).map List.length).sum = prefixLen (s0 :: rest) i := by
      rw [← List.map_take, List.map_map]
      rfl
    rw [← hsum]
    have hb : i < ((s0 :: rest).map (fun s : BlockBasedImage => s.image)).length := by
      simpa using hi
    have hget : ((s0 :: rest).map (fun s : BlockBasedImage => s.image)).get ⟨i, hb⟩
        = ((s0 :: rest).get ⟨i, hi⟩).image := by
      rw [List.get_eq_getElem, List.get_eq_getElem, List.getElem_map]
    have hres := flatten_getD EMPTY
      ((s0 :: rest).map (fun s : BlockBasedImage => s.image)) i hb k
      (by rw [hget]; exact hk)
    rw [hres, hget]

/-- C2 as stated is false on the code: the empty collection of stores
vacuously satisfies the claim's hypotheses, yet merge aborts on the final
Option::unwrap of the never-recorded block_width instead of returning the
empty concatenation. -/
theorem c2_counterexample : BlockBasedImage.merge [] = none := rfl

theorem c2_merge_concat_witness :
    ∃ m, BlockBasedImage.merge
        [⟨1, 2, 0, [EMPTY], 1⟩, ⟨1, 2, 1, [⟨List.replicate 64 1⟩], 1⟩]
      = some m ∧ m.dpos_offset = 0 := by
  obtain ⟨m, h1, h2, -⟩ :=
    c2_merge_concat
      [⟨1, 2, 0, [EMPTY], 1⟩, ⟨1, 2, 1, [⟨List.replicate 64 1⟩], 1⟩]
      (List.cons_ne_nil _ _) (by decide) (by decide) (by decide)
  exact ⟨m, h1, h2⟩

theorem c6_merge_mismatch_fails_witness :
    BlockBasedImage.merge [⟨1, 2, 5, [EMPTY], 1⟩] = none :=
  c6_merge_mismatch_fails [⟨1, 2, 5, [EMPTY], 1⟩] (by decide)
    (Or.inl ⟨0, by decide, by decide⟩)


end LeptonJpeg
